import Mathlib

/-!
Shallow embedding of the stock breakout analyzer (`src/app.py`).

The core function `analyze_breakout_strategy` in the source fetches a daily
OHLCV dataframe for a symbol (the market-data collaborator) and then runs a
pure computation over it.  The embedding starts at the dataframe: the input
series is a `List Bar` (one row per trading day, in the order of the
dataframe index), and the four analysis parameters are the two thresholds,
the holding period, and the series itself.

Pandas float semantics are embedded with `PFloat`: a finite rational, the
two infinities, or NaN.  Rolling-window and `pct_change` cells that pandas
leaves as NaN are `PFloat.nan`; comparisons against NaN are false, division
of a nonzero finite by zero gives a signed infinity and `0/0` gives NaN,
exactly as NumPy evaluates the corresponding dataframe expressions.

Streamlit message calls (`st.error`, `st.info`, `st.warning`) are the only
side channel of the source function besides its return value; they are
embedded as an output list of `Msg`.  The function returns `None` in the
source both for an empty dataframe and for an empty result table; the
embedding returns `Option (List Event)` accordingly.
-/

namespace BreakoutApp

/-- A pandas/NumPy float64 scalar as it arises in the analyzer: a finite
rational or one of the IEEE special values. -/
inductive PFloat where
  | fin (q : ℚ)
  | pinf
  | ninf
  | nan
  deriving DecidableEq, Repr

/-- NaN test on an embedded float. -/
def pfIsNan : PFloat → Bool
  | .nan => true
  | _ => false

/-- Division of two finite float values, NumPy semantics: a nonzero value
divided by zero is a signed infinity, `0/0` is NaN. -/
def pfDivQ (a b : ℚ) : PFloat :=
  if b = 0 then (if 0 < a then .pinf else if a < 0 then .ninf else .nan)
  else .fin (a / b)

/-- Float subtraction with IEEE special-value propagation. -/
def pfSub : PFloat → PFloat → PFloat
  | .fin a, .fin b => .fin (a - b)
  | .nan, _ => .nan
  | _, .nan => .nan
  | .pinf, .pinf => .nan
  | .ninf, .ninf => .nan
  | .pinf, _ => .pinf
  | .ninf, _ => .ninf
  | .fin _, .pinf => .ninf
  | .fin _, .ninf => .pinf

/-- Float addition with IEEE special-value propagation. -/
def pfAdd : PFloat → PFloat → PFloat
  | .fin a, .fin b => .fin (a + b)
  | .nan, _ => .nan
  | _, .nan => .nan
  | .pinf, .ninf => .nan
  | .ninf, .pinf => .nan
  | .pinf, _ => .pinf
  | _, .pinf => .pinf
  | .ninf, _ => .ninf
  | _, .ninf => .ninf

/-- Float multiplication with IEEE special-value propagation
(`inf * 0 = nan`). -/
def pfMul : PFloat → PFloat → PFloat
  | .fin a, .fin b => .fin (a * b)
  | .nan, _ => .nan
  | _, .nan => .nan
  | .pinf, .pinf => .pinf
  | .pinf, .ninf => .ninf
  | .ninf, .pinf => .ninf
  | .ninf, .ninf => .pinf
  | .pinf, .fin b => if 0 < b then .pinf else if b < 0 then .ninf else .nan
  | .fin a, .pinf => if 0 < a then .pinf else if a < 0 then .ninf else .nan
  | .ninf, .fin b => if 0 < b then .ninf else if b < 0 then .pinf else .nan
  | .fin a, .ninf => if 0 < a then .ninf else if a < 0 then .pinf else .nan

/-- Float division with IEEE special-value propagation. -/
def pfDiv : PFloat → PFloat → PFloat
  | .fin a, .fin b => pfDivQ a b
  | .nan, _ => .nan
  | _, .nan => .nan
  | .fin _, .pinf => .fin 0
  | .fin _, .ninf => .fin 0
  | .pinf, .pinf => .nan
  | .pinf, .ninf => .nan
  | .ninf, .pinf => .nan
  | .ninf, .ninf => .nan
  | .pinf, .fin b => if 0 ≤ b then .pinf else .ninf
  | .ninf, .fin b => if 0 ≤ b then .ninf else .pinf

/-- IEEE strict greater-than: any comparison involving NaN is false. -/
def pfGt : PFloat → PFloat → Bool
  | .fin a, .fin b => decide (b < a)
  | .pinf, .fin _ => true
  | .pinf, .ninf => true
  | .fin _, .ninf => true
  | _, _ => false

/-- Pairwise maximum as used by `Series.max()`: NaN cells are skipped. -/
def pfMax : PFloat → PFloat → PFloat
  | .nan, b => b
  | a, .nan => a
  | .fin a, .fin b => .fin (max a b)
  | .pinf, _ => .pinf
  | _, .pinf => .pinf
  | .ninf, b => b
  | a, .ninf => a

/-- Pairwise minimum as used by `Series.min()`: NaN cells are skipped. -/
def pfMin : PFloat → PFloat → PFloat
  | .nan, b => b
  | a, .nan => a
  | .fin a, .fin b => .fin (min a b)
  | .ninf, _ => .ninf
  | _, .ninf => .ninf
  | .pinf, b => b
  | a, .pinf => a

/-- Python `round` to an integer: round half to even. -/
def rndHalfEven (q : ℚ) : ℤ :=
  if q - ⌊q⌋ < 1 / 2 then ⌊q⌋
  else if (1 : ℚ) / 2 < q - ⌊q⌋ then ⌊q⌋ + 1
  else if ⌊q⌋ % 2 = 0 then ⌊q⌋ else ⌊q⌋ + 1

/-- Python `round(x, 2)`: round to two decimal places, half to even. -/
def rnd2 (q : ℚ) : ℚ := (rndHalfEven (q * 100) : ℚ) / 100

/-- `round(x, 2)` lifted to float values: `round` of `inf` or `nan` is the
value itself. -/
def pfRound2 : PFloat → PFloat
  | .fin q => .fin (rnd2 q)
  | x => x

/-- Python `int()` on a finite float: truncation toward zero. -/
def pyTrunc (q : ℚ) : ℤ := if 0 ≤ q then ⌊q⌋ else -⌊-q⌋

/-- One row of the input dataframe: date (as an ordinal day code, the
dataframe's `DatetimeIndex` entry), `Close` and `Volume`. -/
structure Bar where
  date : ℤ
  close : ℚ
  volume : ℤ
  deriving DecidableEq, Repr

/-- Row constructor shorthand. -/
def mkBar (d : ℤ) (c : ℚ) (v : ℤ) : Bar := ⟨d, c, v⟩

/-- `df.iloc[i]["Close"]` (0 outside the index, never consulted there). -/
def clQ (s : List Bar) (i : ℕ) : ℚ :=
  match s[i]? with
  | some b => b.close
  | none => 0

/-- `df.iloc[i]["Volume"]` as the stored integer. -/
def volI (s : List Bar) (i : ℕ) : ℤ :=
  match s[i]? with
  | some b => b.volume
  | none => 0

/-- `df.iloc[i]["Volume"]` as a float operand. -/
def volQ (s : List Bar) (i : ℕ) : ℚ := (volI s i : ℚ)

/-- The dataframe index entry at position `i`. -/
def dateOf (s : List Bar) (i : ℕ) : ℤ :=
  match s[i]? with
  | some b => b.date
  | none => 0

/-- The 20 volumes of the trailing rolling window ending at row `i`
(rows `i-19 .. i`), used when `19 ≤ i`. -/
def window20 (s : List Bar) (i : ℕ) : List ℚ :=
  (List.range 20).map (fun k => volQ s (i - 19 + k))

/-- `df["volume_ma_20"] = df["Volume"].rolling(window=20).mean()`:
the trailing 20-day mean, NaN for the first 19 rows. -/
def vma20 (s : List Bar) (i : ℕ) : PFloat :=
  if 19 ≤ i ∧ i < s.length then .fin ((window20 s i).sum / 20) else .nan

/-- `df["daily_return"] = df["Close"].pct_change()`:
`(close[i] - close[i-1]) / close[i-1]`, NaN on row 0. -/
def dailyReturn (s : List Bar) (i : ℕ) : PFloat :=
  if i = 0 ∨ s.length ≤ i then .nan
  else pfDivQ (clQ s i - clQ s (i - 1)) (clQ s (i - 1))

/-- `df["volume_ratio"] = (df["Volume"] / df["volume_ma_20"] - 1) * 100`. -/
def volRatioPct (s : List Bar) (i : ℕ) : PFloat :=
  pfMul (pfSub (pfDiv (.fin (volQ s i)) (vma20 s i)) (.fin 1)) (.fin 100)

/-- The breakout condition of the source, row by row:
`(Volume > volume_ma_20 * (1 + vt/100)) & (daily_return > pt/100)`.
Rows where either operand is NaN compare as false. -/
def isBreakout (s : List Bar) (vt pt : ℚ) (i : ℕ) : Bool :=
  pfGt (.fin (volQ s i)) (pfMul (vma20 s i) (.fin (1 + vt / 100))) &&
  pfGt (dailyReturn s i) (.fin (pt / 100))

/-- `df[breakout_conditions].index`, as positional indices in dataframe
order (ascending date order). -/
def breakoutIdxs (s : List Bar) (vt pt : ℚ) : List ℕ :=
  (List.range s.length).filter (isBreakout s vt pt)

/-- One row of the result table, with the eight columns of the dict built
in the extraction loop. -/
structure Event where
  breakoutDate : ℤ
  volume : ℤ
  volumeMa20 : ℤ
  volPctAboveAvg : PFloat
  priceChangePct : PFloat
  entryPrice : ℚ
  exitPrice : ℚ
  holdingReturnPct : PFloat
  deriving DecidableEq, Repr

/-- Streamlit messages the function can emit: `st.error` on an empty
dataframe, `st.info` on an empty result table, `st.warning` from the
`except` branch of the extraction loop. -/
inductive Msg where
  | errNoData
  | infoNoBreakouts
  | warnEventError
  deriving DecidableEq, Repr

/-- The body of the `try` block for one breakout row `i`: build the result
dict.  `int()` on the NaN moving average would raise, which the source
catches and turns into a warning; that raising path is `none`.  (At a
breakout row the moving average is always finite, so the path is dead.) -/
def buildEvent (s : List Bar) (hp i : ℕ) : Option Event :=
  match vma20 s i with
  | .fin m =>
      some {
        breakoutDate := dateOf s i
        volume := volI s i
        volumeMa20 := pyTrunc m
        volPctAboveAvg := pfRound2 (volRatioPct s i)
        priceChangePct := pfRound2 (pfMul (dailyReturn s i) (.fin 100))
        entryPrice := rnd2 (clQ s i)
        exitPrice := rnd2 (clQ s (i + hp))
        holdingReturnPct :=
          pfRound2 (pfMul (pfDivQ (clQ s (i + hp) - clQ s i) (clQ s i)) (.fin 100)) }
  | _ => none

/-- One iteration of the extraction loop: skip the row when the exit index
`i + holding_period` is out of bounds (`continue`), otherwise append the
built row, or a warning if construction raised. -/
def stepFn (s : List Bar) (hp : ℕ) (acc : List Event × List Msg) (i : ℕ) :
    List Event × List Msg :=
  if i + hp < s.length then
    match buildEvent s hp i with
    | some e => (acc.1 ++ [e], acc.2)
    | none => (acc.1, acc.2 ++ [Msg.warnEventError])
  else acc

/-- The extraction loop over all breakout rows: the accumulated result rows
(`breakout_returns`) and the warnings emitted along the way. -/
def extractEvents (s : List Bar) (vt pt : ℚ) (hp : ℕ) : List Event × List Msg :=
  (breakoutIdxs s vt pt).foldl (stepFn s hp) ([], [])

/-- `analyze_breakout_strategy` from the dataframe on: `None` plus an
error message when the dataframe is empty, `None` plus an info message when
the result table is empty, otherwise the result table. -/
def analyze_breakout_strategy (s : List Bar) (vt pt : ℚ) (hp : ℕ) :
    Option (List Event) × List Msg :=
  if s.isEmpty then (none, [Msg.errNoData])
  else if (extractEvents s vt pt hp).1.isEmpty then
    (none, (extractEvents s vt pt hp).2 ++ [Msg.infoNoBreakouts])
  else (some (extractEvents s vt pt hp).1, (extractEvents s vt pt hp).2)

/-- `len(results)`, the Total Breakouts metric of `main`. -/
def summaryCount (evs : List Event) : ℕ := evs.length

/-- The holding-period-return column of the result table. -/
def hprCol (evs : List Event) : List PFloat := evs.map Event.holdingReturnPct

/-- `Series.mean()`: NaN cells are skipped; the mean of an all-NaN (or
empty) column is NaN. -/
def colMean (xs : List PFloat) : PFloat :=
  let nn := xs.filter (fun x => !(pfIsNan x))
  if nn.isEmpty then .nan
  else pfDiv (nn.foldl pfAdd (.fin 0)) (.fin (nn.length : ℚ))

/-- `(results[col] > 0).mean() * 100`, the Win Rate metric of `main`: the
comparison column is boolean, so its mean is the fraction of true cells. -/
def winRatePct (xs : List PFloat) : PFloat :=
  if xs.isEmpty then .nan
  else .fin ((xs.countP (fun x => pfGt x (.fin 0)) : ℚ) / (xs.length : ℚ) * 100)

/-- `Series.max()`, the Best Return metric of `main`. -/
def colMax (xs : List PFloat) : PFloat := xs.foldl pfMax .nan

/-- `Series.min()`, the Worst Return metric of `main`. -/
def colMin (xs : List PFloat) : PFloat := xs.foldl pfMin .nan

/-- The structural contract on the input series stated by the spec for
`DailyBar` / `InvalidSeries`: strictly ascending dates, positive closes,
non-negative volumes. -/
def seriesValid (s : List Bar) : Prop :=
  (∀ i < s.length - 1, dateOf s i < dateOf s (i + 1)) ∧
  (∀ b ∈ s, 0 < b.close) ∧ (∀ b ∈ s, 0 ≤ b.volume)

instance (s : List Bar) : Decidable (seriesValid s) :=
  inferInstanceAs (Decidable (_ ∧ _ ∧ _))

/-- A 21-bar series with one qualifying day at index 19: flat at close 100
and volume 1000 for 19 days, then a volume/price surge to 1019 and
103.004, then one more day at 104 for the exit. -/
def demoSeries : List Bar :=
  (List.range 19).map (fun k => mkBar (k : ℤ) 100 1000) ++
  [mkBar 19 103.004 1019, mkBar 20 104 1000]

/-- The result row the analyzer produces for `demoSeries` with thresholds
`vt = 0`, `pt = 1` and holding period 1. -/
def demoEvent : Event :=
  { breakoutDate := 19
    volume := 1019
    volumeMa20 := 1000
    volPctAboveAvg := .fin (9 / 5)
    priceChangePct := .fin 3
    entryPrice := 103
    exitPrice := 104
    holdingReturnPct := .fin (97 / 100) }

/-- A 22-bar series with twenty consecutive zero-volume days (indices
0..19) followed by a positive-volume surge day at index 20 with a 3%
price rise, then one more day for the exit. -/
def demoZ : List Bar :=
  (List.range 20).map (fun k => mkBar (k : ℤ) 100 0) ++
  [mkBar 20 103 100, mkBar 21 104 0]

/-- The result row the analyzer produces for `demoZ` with thresholds
`vt = 200`, `pt = 2` and holding period 1. -/
def demoZEvent : Event :=
  { breakoutDate := 20
    volume := 100
    volumeMa20 := 5
    volPctAboveAvg := .fin 1900
    priceChangePct := .fin 3
    entryPrice := 103
    exitPrice := 104
    holdingReturnPct := .fin (97 / 100) }

/-- A series violating every structural constraint at bar 0 (a date later
than its successor, a negative close, a negative volume) that still
contains a qualifying day at index 19. -/
def badSeries : List Bar :=
  [mkBar 100 (-1) (-5)] ++
  (List.range 18).map (fun k => mkBar ((k : ℤ) + 1) 100 1000) ++
  [mkBar 19 103 4005, mkBar 20 104 1000]

/-- A single-bar series: non-empty, but no row can qualify. -/
def oneBar : List Bar := [mkBar 0 100 1000]

/-- The result row the analyzer produces for `badSeries` with thresholds
`vt = 0`, `pt = 1` and holding period 1: a normal numeric row despite the
contract violations. -/
def badEvent : Event :=
  { breakoutDate := 19
    volume := 4005
    volumeMa20 := 1100
    volPctAboveAvg := .fin (26409 / 100)
    priceChangePct := .fin 3
    entryPrice := 103
    exitPrice := 104
    holdingReturnPct := .fin (97 / 100) }

theorem vma20_cases (s : List Bar) (i : ℕ) :
    vma20 s i = .fin ((window20 s i).sum / 20) ∨ vma20 s i = .nan := by
  unfold vma20
  split
  · exact Or.inl rfl
  · exact Or.inr rfl

theorem vma20_fin_inv {s : List Bar} {i : ℕ} {m : ℚ} (h : vma20 s i = .fin m) :
    19 ≤ i ∧ i < s.length ∧ m = (window20 s i).sum / 20 := by
  unfold vma20 at h
  split at h
  · rename_i hc
    injection h with h'
    exact ⟨hc.1, hc.2, h'.symm⟩
  · cases h

theorem breakout_vma_fin {s : List Bar} {vt pt : ℚ} {i : ℕ}
    (h : isBreakout s vt pt i = true) :
    ∃ m : ℚ, vma20 s i = .fin m ∧ m * (1 + vt / 100) < volQ s i := by
  unfold isBreakout at h
  rw [Bool.and_eq_true] at h
  obtain ⟨h1, _⟩ := h
  rcases vma20_cases s i with hm | hm
  · refine ⟨_, hm, ?_⟩
    rw [hm] at h1
    simpa [pfMul, pfGt] using h1
  · rw [hm] at h1
    simp [pfMul, pfGt] at h1

theorem clQ_eq_of {s : List Bar} {i : ℕ} {b : Bar} (h : s[i]? = some b) :
    clQ s i = b.close := by
  unfold clQ
  rw [h]

theorem clQ_pos {s : List Bar} {i : ℕ} (hc : ∀ b ∈ s, 0 < b.close)
    (hl : i < s.length) : 0 < clQ s i := by
  rw [clQ_eq_of (List.getElem?_eq_getElem hl)]
  exact hc _ (List.getElem_mem hl)

theorem volQ_nonneg {s : List Bar} (hv : ∀ b ∈ s, 0 ≤ b.volume) (i : ℕ) :
    0 ≤ volQ s i := by
  unfold volQ volI
  cases h : s[i]? with
  | none => simp
  | some b =>
      simp only []
      exact_mod_cast hv b (List.getElem?_mem h)

theorem window20_nonneg {s : List Bar} (hv : ∀ b ∈ s, 0 ≤ b.volume) (i : ℕ) :
    ∀ x ∈ window20 s i, 0 ≤ x := by
  intro x hx
  unfold window20 at hx
  obtain ⟨k, _, rfl⟩ := List.mem_map.mp hx
  exact volQ_nonneg hv _

theorem volQ_mem_window20 {s : List Bar} {i : ℕ} (h19 : 19 ≤ i) :
    volQ s i ∈ window20 s i := by
  unfold window20
  refine List.mem_map.mpr ⟨19, List.mem_range.mpr (by norm_num), ?_⟩
  rw [Nat.sub_add_cancel h19]

theorem breakout_ma_pos {s : List Bar} {vt pt : ℚ} {i : ℕ} {m : ℚ}
    (hv : ∀ b ∈ s, 0 ≤ b.volume) (hvt : 0 ≤ vt)
    (hb : isBreakout s vt pt i = true) (hm : vma20 s i = .fin m) :
    0 < m ∧ 0 < volQ s i := by
  obtain ⟨m', hm', hlt⟩ := breakout_vma_fin hb
  rw [hm] at hm'
  injection hm' with e
  subst e
  obtain ⟨h19, _, hmeq⟩ := vma20_fin_inv hm
  have hwin := window20_nonneg hv i
  have hsum : 0 ≤ (window20 s i).sum := List.sum_nonneg hwin
  have hm0 : 0 ≤ m := by
    rw [hmeq]
    positivity
  have hk : (1 : ℚ) ≤ 1 + vt / 100 := by linarith
  have hmk : m ≤ m * (1 + vt / 100) := le_mul_of_one_le_right hm0 hk
  have hvpos : 0 < volQ s i := lt_of_le_of_lt (hm0.trans hmk) hlt
  have hv_le : volQ s i ≤ (window20 s i).sum :=
    List.single_le_sum hwin _ (volQ_mem_window20 h19)
  refine ⟨?_, hvpos⟩
  rw [hmeq]
  exact div_pos (lt_of_lt_of_le hvpos hv_le) (by norm_num)

theorem breakout_buildEvent {s : List Bar} {vt pt : ℚ} {hp i : ℕ}
    (hb : isBreakout s vt pt i = true) :
    ∃ e, buildEvent s hp i = some e := by
  obtain ⟨m, hm, _⟩ := breakout_vma_fin hb
  unfold buildEvent
  rw [hm]
  exact ⟨_, rfl⟩

theorem extract_go (s : List Bar) (hp : ℕ) :
    ∀ (L : List ℕ) (acc : List Event × List Msg),
      (∀ i ∈ L, ∃ e, buildEvent s hp i = some e) →
      L.foldl (stepFn s hp) acc =
        (acc.1 ++ (L.filter (fun i => decide (i + hp < s.length))).filterMap
          (buildEvent s hp), acc.2)
  | [], acc, _ => by simp
  | i :: L, acc, h => by
    obtain ⟨e, he⟩ := h i (List.mem_cons_self i L)
    have hrest : ∀ j ∈ L, ∃ e, buildEvent s hp j = some e :=
      fun j hj => h j (List.mem_cons_of_mem _ hj)
    by_cases hb : i + hp < s.length
    · have hstep : stepFn s hp acc i = (acc.1 ++ [e], acc.2) := by
        unfold stepFn
        rw [if_pos hb, he]
      rw [List.foldl_cons, hstep, extract_go s hp L _ hrest]
      simp [List.filter_cons, hb, he]
    · have hstep : stepFn s hp acc i = acc := by
        unfold stepFn
        rw [if_neg hb]
      rw [List.foldl_cons, hstep, extract_go s hp L _ hrest]
      simp [List.filter_cons, hb]

theorem extractEvents_eq (s : List Bar) (vt pt : ℚ) (hp : ℕ) :
    extractEvents s vt pt hp =
      (((breakoutIdxs s vt pt).filter (fun i => decide (i + hp < s.length))).filterMap
        (buildEvent s hp), []) := by
  unfold extractEvents
  rw [extract_go s hp _ _ ?_]
  · simp
  · intro i hi
    exact breakout_buildEvent (List.of_mem_filter hi)

theorem analyze_some_inv {s : List Bar} {vt pt : ℚ} {hp : ℕ}
    {evs : List Event} {msgs : List Msg}
    (h : analyze_breakout_strategy s vt pt hp = (some evs, msgs)) :
    evs = (extractEvents s vt pt hp).1 ∧ msgs = [] ∧ evs ≠ [] := by
  unfold analyze_breakout_strategy at h
  split at h
  · simp at h
  · split at h
    · simp at h
    · rename_i hne
      obtain ⟨h1, h2⟩ := Prod.mk.injEq _ _ _ _ ▸ h
      injection h1 with h1
      subst h1
      refine ⟨rfl, ?_, ?_⟩
      · rw [← h2, extractEvents_eq]
      · intro hnil
        rw [hnil] at hne
        simp at hne

theorem mem_events_inv {s : List Bar} {vt pt : ℚ} {hp : ℕ} {e : Event}
    (h : e ∈ (extractEvents s vt pt hp).1) :
    ∃ i m, isBreakout s vt pt i = true ∧ i + hp < s.length ∧
      vma20 s i = .fin m ∧
      e = { breakoutDate := dateOf s i
            volume := volI s i
            volumeMa20 := pyTrunc m
            volPctAboveAvg := pfRound2 (volRatioPct s i)
            priceChangePct := pfRound2 (pfMul (dailyReturn s i) (.fin 100))
            entryPrice := rnd2 (clQ s i)
            exitPrice := rnd2 (clQ s (i + hp))
            holdingReturnPct :=
              pfRound2 (pfMul (pfDivQ (clQ s (i + hp) - clQ s i) (clQ s i))
                (.fin 100)) } := by
  rw [extractEvents_eq] at h
  obtain ⟨i, hi, hbe⟩ := List.mem_filterMap.mp h
  have hflag : isBreakout s vt pt i = true :=
    List.of_mem_filter (List.mem_of_mem_filter hi)
  have hbound : i + hp < s.length := by
    have := List.of_mem_filter hi
    simpa using this
  obtain ⟨m, hm, _⟩ := breakout_vma_fin hflag
  refine ⟨i, m, hflag, hbound, hm, ?_⟩
  unfold buildEvent at hbe
  rw [hm] at hbe
  injection hbe with hbe
  exact hbe.symm

theorem dailyReturn_fin {s : List Bar} {i : ℕ} (hc : ∀ b ∈ s, 0 < b.close)
    (h0 : i ≠ 0) (hl : i < s.length) :
    dailyReturn s i = .fin ((clQ s i - clQ s (i - 1)) / clQ s (i - 1)) := by
  have hlt : i - 1 < s.length := lt_of_le_of_lt (Nat.sub_le i 1) hl
  have hpos : 0 < clQ s (i - 1) := clQ_pos hc hlt
  unfold dailyReturn
  rw [if_neg (by push_neg; exact ⟨h0, hl⟩)]
  unfold pfDivQ
  rw [if_neg hpos.ne']

theorem breakout_dret_fin {s : List Bar} {vt pt : ℚ} {i : ℕ}
    (hc : ∀ b ∈ s, 0 < b.close) (hb : isBreakout s vt pt i = true) :
    ∃ r : ℚ, dailyReturn s i = .fin r ∧ pt / 100 < r ∧
      r = (clQ s i - clQ s (i - 1)) / clQ s (i - 1) ∧ i ≠ 0 ∧ i < s.length := by
  unfold isBreakout at hb
  rw [Bool.and_eq_true] at hb
  obtain ⟨_, h2⟩ := hb
  by_cases hcond : i = 0 ∨ s.length ≤ i
  · rw [show dailyReturn s i = .nan by unfold dailyReturn; rw [if_pos hcond]] at h2
    simp [pfGt] at h2
  · push_neg at hcond
    obtain ⟨h0, hlen'⟩ := hcond
    have hd := dailyReturn_fin hc h0 hlen'
    rw [hd] at h2
    refine ⟨_, hd, ?_, rfl, h0, hlen'⟩
    simpa [pfGt] using h2

theorem ratio_fin {s : List Bar} {i : ℕ} {m : ℚ} (hm0 : m ≠ 0)
    (hm : vma20 s i = .fin m) :
    volRatioPct s i = .fin ((volQ s i / m - 1) * 100) := by
  unfold volRatioPct
  rw [hm]
  show pfMul (pfSub (pfDivQ (volQ s i) m) (.fin 1)) (.fin 100) = _
  unfold pfDivQ
  rw [if_neg hm0]
  rfl

theorem ratio_nan_of_vma_nan {s : List Bar} {i : ℕ} (hm : vma20 s i = .nan) :
    volRatioPct s i = .nan := by
  unfold volRatioPct
  rw [hm]
  rfl

theorem ratio_nan_inv {s : List Bar} {i : ℕ} (h : volRatioPct s i = .nan) :
    vma20 s i = .nan ∨ (vma20 s i = .fin 0 ∧ volQ s i = 0) := by
  rcases vma20_cases s i with hm | hm
  · set m := (window20 s i).sum / 20 with hmdef
    unfold volRatioPct at h
    rw [hm] at h
    by_cases hm0 : m = 0
    · rcases lt_trichotomy (volQ s i) 0 with hv | hv | hv
      · rw [show pfDiv (.fin (volQ s i)) (.fin m) = .ninf by
          simp [pfDiv, pfDivQ, hm0, hv, hv.not_lt]] at h
        simp [pfSub, pfMul] at h
      · exact Or.inr ⟨hm0 ▸ hm, hv⟩
      · rw [show pfDiv (.fin (volQ s i)) (.fin m) = .pinf by
          simp [pfDiv, pfDivQ, hm0, hv]] at h
        simp [pfSub, pfMul] at h
    · rw [show pfDiv (.fin (volQ s i)) (.fin m) = .fin (volQ s i / m) by
        simp [pfDiv, pfDivQ, hm0]] at h
      simp [pfSub, pfMul] at h
  · exact Or.inl hm

theorem listRangeMapSum (n : ℕ) (f : ℕ → ℚ) :
    ((List.range n).map f).sum = ∑ k in Finset.range n, f k := by
  induction n with
  | zero => simp
  | succ n ih =>
      rw [List.range_succ, List.map_append, List.sum_append,
        Finset.sum_range_succ, ih]
      simp

theorem all_fin_exists {L : List PFloat} (h : ∀ x ∈ L, ∃ q : ℚ, x = .fin q) :
    ∃ qs : List ℚ, L = qs.map PFloat.fin := by
  induction L with
  | nil => exact ⟨[], rfl⟩
  | cons x L ih =>
      obtain ⟨q, hq⟩ := h x (List.mem_cons_self x L)
      obtain ⟨qs, hqs⟩ := ih (fun y hy => h y (List.mem_cons_of_mem _ hy))
      exact ⟨q :: qs, by rw [hq, hqs]; rfl⟩

theorem filter_notNan_fins (qs : List ℚ) :
    (qs.map PFloat.fin).filter (fun x => !(pfIsNan x)) = qs.map PFloat.fin := by
  refine List.filter_eq_self.mpr ?_
  intro x hx
  obtain ⟨q, _, rfl⟩ := List.mem_map.mp hx
  rfl

theorem foldl_pfAdd_fin (qs : List ℚ) (a : ℚ) :
    (qs.map PFloat.fin).foldl pfAdd (.fin a) = .fin (a + qs.sum) := by
  induction qs generalizing a with
  | nil => simp
  | cons q qs ih =>
      simp only [List.map_cons, List.foldl_cons]
      rw [show pfAdd (.fin a) (.fin q) = .fin (a + q) from rfl, ih]
      rw [List.sum_cons]
      ring_nf

theorem colMean_fins (qs : List ℚ) (h : qs ≠ []) :
    colMean (qs.map PFloat.fin) = .fin (qs.sum / (qs.length : ℚ)) := by
  unfold colMean
  rw [filter_notNan_fins]
  rw [if_neg (by simp [h])]
  rw [foldl_pfAdd_fin qs 0]
  have hlen : ((qs.map PFloat.fin).length : ℚ) = (qs.length : ℚ) := by
    rw [List.length_map]
  rw [hlen]
  have hne : (qs.length : ℚ) ≠ 0 := by
    have : qs.length ≠ 0 := fun h0 => h (List.length_eq_zero.mp h0)
    exact_mod_cast this
  rw [show pfDiv (.fin (0 + qs.sum)) (.fin (qs.length : ℚ)) =
    pfDivQ (0 + qs.sum) (qs.length : ℚ) from rfl]
  unfold pfDivQ
  rw [if_neg hne]
  rw [zero_add]

theorem winRatePct_fins (qs : List ℚ) (h : qs ≠ []) :
    winRatePct (qs.map PFloat.fin) =
      .fin (((qs.countP (fun q => decide (0 < q))) : ℚ) / (qs.length : ℚ) * 100) := by
  unfold winRatePct
  rw [if_neg (by simp [h])]
  rw [List.countP_map, List.length_map]
  rfl

theorem foldl_pfMax_fin (qs : List ℚ) (a : ℚ) :
    (qs.map PFloat.fin).foldl pfMax (.fin a) = .fin (qs.foldl max a) := by
  induction qs generalizing a with
  | nil => simp
  | cons q qs ih =>
      simp only [List.map_cons, List.foldl_cons]
      rw [show pfMax (.fin a) (.fin q) = .fin (max a q) from rfl, ih]

theorem colMax_fins (q : ℚ) (qs : List ℚ) :
    colMax ((q :: qs).map PFloat.fin) = .fin (qs.foldl max q) := by
  unfold colMax
  simp only [List.map_cons, List.foldl_cons]
  rw [show pfMax .nan (.fin q) = .fin q from rfl]
  exact foldl_pfMax_fin qs q

theorem foldl_pfMin_fin (qs : List ℚ) (a : ℚ) :
    (qs.map PFloat.fin).foldl pfMin (.fin a) = .fin (qs.foldl min a) := by
  induction qs generalizing a with
  | nil => simp
  | cons q qs ih =>
      simp only [List.map_cons, List.foldl_cons]
      rw [show pfMin (.fin a) (.fin q) = .fin (min a q) from rfl, ih]

theorem colMin_fins (q : ℚ) (qs : List ℚ) :
    colMin ((q :: qs).map PFloat.fin) = .fin (qs.foldl min q) := by
  unfold colMin
  simp only [List.map_cons, List.foldl_cons]
  rw [show pfMin .nan (.fin q) = .fin q from rfl]
  exact foldl_pfMin_fin qs q

theorem foldl_max_spec (qs : List ℚ) (a : ℚ) :
    (qs.foldl max a = a ∨ qs.foldl max a ∈ qs) ∧
      a ≤ qs.foldl max a ∧ ∀ x ∈ qs, x ≤ qs.foldl max a := by
  induction qs generalizing a with
  | nil => simp
  | cons q qs ih =>
      obtain ⟨hmem, hle, hall⟩ := ih (max a q)
      rw [List.foldl_cons]
      refine ⟨?_, le_trans (le_max_left a q) hle, ?_⟩
      · rcases hmem with hh | hh
        · rcases max_choice a q with he | he
          · left; rw [hh, he]
          · right; rw [hh, he]; exact List.mem_cons_self q qs
        · right; exact List.mem_cons_of_mem _ hh
      · intro x hx
        rcases List.mem_cons.mp hx with rfl | hx
        · exact le_trans (le_max_right a x) hle
        · exact hall x hx

theorem foldl_min_spec (qs : List ℚ) (a : ℚ) :
    (qs.foldl min a = a ∨ qs.foldl min a ∈ qs) ∧
      qs.foldl min a ≤ a ∧ ∀ x ∈ qs, qs.foldl min a ≤ x := by
  induction qs generalizing a with
  | nil => simp
  | cons q qs ih =>
      obtain ⟨hmem, hle, hall⟩ := ih (min a q)
      rw [List.foldl_cons]
      refine ⟨?_, le_trans hle (min_le_left a q), ?_⟩
      · rcases hmem with hh | hh
        · rcases min_choice a q with he | he
          · left; rw [hh, he]
          · right; rw [hh, he]; exact List.mem_cons_self q qs
        · right; exact List.mem_cons_of_mem _ hh
      · intro x hx
        rcases List.mem_cons.mp hx with rfl | hx
        · exact le_trans hle (min_le_right a x)
        · exact hall x hx

theorem hpr_field_fin {s : List Bar} {i hp : ℕ} (hc : ∀ b ∈ s, 0 < b.close)
    (hb : i + hp < s.length) :
    pfRound2 (pfMul (pfDivQ (clQ s (i + hp) - clQ s i) (clQ s i)) (.fin 100)) =
      .fin (rnd2 ((clQ s (i + hp) - clQ s i) / clQ s i * 100)) := by
  have h1 : 0 < clQ s i := clQ_pos hc (lt_of_le_of_lt (Nat.le_add_right i hp) hb)
  unfold pfDivQ
  rw [if_neg h1.ne']
  rfl

theorem events_hpr_fin {s : List Bar} {vt pt : ℚ} {hp : ℕ}
    (hc : ∀ b ∈ s, 0 < b.close) :
    ∀ e ∈ (extractEvents s vt pt hp).1, ∃ q : ℚ, e.holdingReturnPct = .fin q := by
  intro e he
  obtain ⟨i, m, _, hbound, _, he'⟩ := mem_events_inv he
  refine ⟨rnd2 ((clQ s (i + hp) - clQ s i) / clQ s i * 100), ?_⟩
  rw [he']
  exact hpr_field_fin hc hbound

/-- Claim C1: for every input series (with positive closes, the `DailyBar`
contract) and thresholds, a day `i` is flagged as a breakout iff the 20-day
volume moving average is defined with `volume > ma * (1 + vt/100)` and the
daily return is defined with `return > pt/100`; both comparisons are
strict, so a day exactly at either threshold never qualifies, and a day
with any NaN derived value is never flagged. -/
theorem C1_breakout_iff (s : List Bar) (vt pt : ℚ) (i : ℕ)
    (hc : ∀ b ∈ s, 0 < b.close) :
    (isBreakout s vt pt i = true ↔
      ((∃ m : ℚ, vma20 s i = .fin m ∧ m * (1 + vt / 100) < volQ s i) ∧
       (∃ r : ℚ, dailyReturn s i = .fin r ∧ pt / 100 < r))) ∧
    (∀ m : ℚ, vma20 s i = .fin m → volQ s i = m * (1 + vt / 100) →
      isBreakout s vt pt i = false) ∧
    (∀ r : ℚ, dailyReturn s i = .fin r → r = pt / 100 →
      isBreakout s vt pt i = false) ∧
    ((vma20 s i = .nan ∨ dailyReturn s i = .nan ∨ volRatioPct s i = .nan) →
      isBreakout s vt pt i = false) := by
  have hiff : isBreakout s vt pt i = true ↔
      ((∃ m : ℚ, vma20 s i = .fin m ∧ m * (1 + vt / 100) < volQ s i) ∧
       (∃ r : ℚ, dailyReturn s i = .fin r ∧ pt / 100 < r)) := by
    constructor
    · intro hb
      obtain ⟨m, hm, hlt⟩ := breakout_vma_fin hb
      obtain ⟨r, hr, hgt, _, _, _⟩ := breakout_dret_fin hc hb
      exact ⟨⟨m, hm, hlt⟩, ⟨r, hr, hgt⟩⟩
    · rintro ⟨⟨m, hm, hlt⟩, ⟨r, hr, hgt⟩⟩
      unfold isBreakout
      rw [hm, hr, Bool.and_eq_true]
      constructor
      · show pfGt (.fin (volQ s i)) (pfMul (.fin m) (.fin (1 + vt / 100))) = true
        simpa [pfMul, pfGt] using hlt
      · simpa [pfGt] using hgt
  refine ⟨hiff, ?_, ?_, ?_⟩
  · intro m hm heq
    cases hbv : isBreakout s vt pt i
    · rfl
    · exfalso
      obtain ⟨⟨m', hm', hlt⟩, _⟩ := hiff.mp hbv
      rw [hm] at hm'
      injection hm' with e
      subst e
      rw [heq] at hlt
      exact lt_irrefl _ hlt
  · intro r hr heq
    cases hbv : isBreakout s vt pt i
    · rfl
    · exfalso
      obtain ⟨_, ⟨r', hr', hgt⟩⟩ := hiff.mp hbv
      rw [hr] at hr'
      injection hr' with e
      subst e
      rw [heq] at hgt
      exact lt_irrefl _ hgt
  · intro hnan
    cases hbv : isBreakout s vt pt i
    · rfl
    · exfalso
      obtain ⟨⟨m, hm, hlt⟩, ⟨r, hr, _⟩⟩ := hiff.mp hbv
      rcases hnan with h | h | h
      · rw [hm] at h; cases h
      · rw [hr] at h; cases h
      · rcases ratio_nan_inv h with h' | ⟨h0, hv0⟩
        · rw [hm] at h'; cases h'
        · rw [hm] at h0
          injection h0 with e
          subst e
          rw [hv0] at hlt
          rw [zero_mul] at hlt
          exact lt_irrefl _ hlt

/-- Witness for C1 at `demoSeries`, day 19, thresholds 0 and 1. -/
theorem C1_breakout_iff_witness :
    (∀ b ∈ demoSeries, 0 < b.close) ∧
    (isBreakout demoSeries 0 1 19 = true ↔
      ((∃ m : ℚ, vma20 demoSeries 19 = .fin m ∧
          m * (1 + (0 : ℚ) / 100) < volQ demoSeries 19) ∧
       (∃ r : ℚ, dailyReturn demoSeries 19 = .fin r ∧ (1 : ℚ) / 100 < r))) :=
  ⟨by with_unfolding_all decide,
   (C1_breakout_iff demoSeries 0 1 19 (by with_unfolding_all decide)).1⟩

/-- Claim C2: for every holding period `h ≥ 1`, every event in the returned
result has its exit index strictly inside the series (its exit price is the
close at `i + h` with `i + h < length`), and out-of-range breakout days are
dropped without a warning or error being emitted. -/
theorem C2_exit_in_bounds (s : List Bar) (vt pt : ℚ) (hp : ℕ)
    (evs : List Event) (msgs : List Msg) (hhp : 1 ≤ hp)
    (h : analyze_breakout_strategy s vt pt hp = (some evs, msgs)) :
    (∀ e ∈ evs, ∃ i, isBreakout s vt pt i = true ∧ i + hp < s.length ∧
      e.exitPrice = rnd2 (clQ s (i + hp))) ∧
    evs = ((breakoutIdxs s vt pt).filter
      (fun i => decide (i + hp < s.length))).filterMap (buildEvent s hp) ∧
    Msg.warnEventError ∉ msgs := by
  obtain ⟨hevs, hmsgs, _⟩ := analyze_some_inv h
  subst hevs
  subst hmsgs
  refine ⟨?_, ?_, by simp⟩
  · intro e he
    obtain ⟨i, m, hflag, hbound, hm, he'⟩ := mem_events_inv he
    exact ⟨i, hflag, hbound, by rw [he']⟩
  · rw [extractEvents_eq]

/-- Witness for C2 at `demoSeries` with holding period 1. -/
theorem C2_exit_in_bounds_witness :
    (1 ≤ 1) ∧
    ((∀ e ∈ [demoEvent], ∃ i, isBreakout demoSeries 0 1 i = true ∧
        i + 1 < demoSeries.length ∧ e.exitPrice = rnd2 (clQ demoSeries (i + 1))) ∧
     [demoEvent] = ((breakoutIdxs demoSeries 0 1).filter
       (fun i => decide (i + 1 < demoSeries.length))).filterMap
         (buildEvent demoSeries 1) ∧
     Msg.warnEventError ∉ ([] : List Msg)) :=
  ⟨le_refl 1,
   C2_exit_in_bounds demoSeries 0 1 1 [demoEvent] [] (le_refl 1)
     (by with_unfolding_all rfl)⟩

/-- Claim C9: the analysis is a deterministic pure function of the series
and the three parameters: calls with componentwise identical inputs return
identical outputs, and the embedding carries no other state. -/
theorem C9_pure (s₁ s₂ : List Bar) (vt₁ vt₂ pt₁ pt₂ : ℚ) (hp₁ hp₂ : ℕ)
    (hs : s₁ = s₂) (hvt : vt₁ = vt₂) (hpt : pt₁ = pt₂) (hhp : hp₁ = hp₂) :
    analyze_breakout_strategy s₁ vt₁ pt₁ hp₁ =
      analyze_breakout_strategy s₂ vt₂ pt₂ hp₂ := by
  subst hs
  subst hvt
  subst hpt
  subst hhp
  rfl

/-- Witness for C9 at `demoSeries`. -/
theorem C9_pure_witness :
    analyze_breakout_strategy demoSeries 0 1 1 =
      analyze_breakout_strategy demoSeries 0 1 1 :=
  C9_pure demoSeries demoSeries 0 0 1 1 1 1 rfl rfl rfl rfl

/-- Counterexample to C3: the empty-series outcome and the non-empty
no-breakout outcome are the same returned value (`None`), so they are not
distinct return variants a caller could tell apart. -/
theorem C3_cex :
    (analyze_breakout_strategy [] 200 2 10).1 = none ∧
    (analyze_breakout_strategy oneBar 200 2 10).1 = none ∧
    (analyze_breakout_strategy [] 200 2 10).1 =
      (analyze_breakout_strategy oneBar 200 2 10).1 := by
  refine ⟨?_, ?_, ?_⟩ <;> with_unfolding_all rfl

/-- Claim C3 amended: an empty series returns `None` after an error
message and a non-empty series with no qualifying event returns `None`
after an info message; neither raises, the two UI messages differ, but the
returned value is `None` in both cases, so the caller cannot distinguish
them from the return value. -/
theorem C3_amended (s : List Bar) (vt pt : ℚ) (hp : ℕ)
    (h1 : s ≠ []) (h2 : (extractEvents s vt pt hp).1 = []) :
    analyze_breakout_strategy s vt pt hp = (none, [Msg.infoNoBreakouts]) ∧
    analyze_breakout_strategy [] vt pt hp = (none, [Msg.errNoData]) ∧
    (analyze_breakout_strategy s vt pt hp).1 =
      (analyze_breakout_strategy [] vt pt hp).1 ∧
    (analyze_breakout_strategy s vt pt hp).2 ≠
      (analyze_breakout_strategy [] vt pt hp).2 := by
  have hmsg : (extractEvents s vt pt hp).2 = [] := by
    rw [extractEvents_eq]
  have ha : analyze_breakout_strategy s vt pt hp = (none, [Msg.infoNoBreakouts]) := by
    unfold analyze_breakout_strategy
    rw [if_neg (by simpa using h1), if_pos (by simpa using h2), hmsg]
    rfl
  have hb : analyze_breakout_strategy [] vt pt hp = (none, [Msg.errNoData]) := rfl
  refine ⟨ha, hb, ?_, ?_⟩
  · rw [ha, hb]
  · rw [ha, hb]
    simp

/-- Witness for the amended C3 at the one-bar series. -/
theorem C3_amended_witness :
    (oneBar ≠ []) ∧ ((extractEvents oneBar 200 2 10).1 = []) ∧
    (analyze_breakout_strategy oneBar 200 2 10 = (none, [Msg.infoNoBreakouts]) ∧
     analyze_breakout_strategy [] 200 2 10 = (none, [Msg.errNoData]) ∧
     (analyze_breakout_strategy oneBar 200 2 10).1 =
       (analyze_breakout_strategy [] 200 2 10).1 ∧
     (analyze_breakout_strategy oneBar 200 2 10).2 ≠
       (analyze_breakout_strategy [] 200 2 10).2) :=
  ⟨by simp [oneBar], by with_unfolding_all rfl,
   C3_amended oneBar 200 2 10 (by simp [oneBar]) (by with_unfolding_all rfl)⟩

/-- Counterexample to C4: `badSeries` violates the structural contract
(descending dates at the start, a non-positive close, a negative volume),
yet the analyzer returns a numeric result table instead of failing. -/
theorem C4_cex :
    ¬ seriesValid badSeries ∧
    analyze_breakout_strategy badSeries 0 1 1 = (some [badEvent], []) := by
  constructor
  · with_unfolding_all decide
  · with_unfolding_all rfl

/-- Claim C4 amended: the analyzer performs no structural validation of
the series; a series violating the contract with at least one qualifying
day is processed by the normal numeric pipeline and returns a numeric
result table with no error message. -/
theorem C4_amended (s : List Bar) (vt pt : ℚ) (hp : ℕ)
    (hinv : ¬ seriesValid s) (hne : s ≠ [])
    (hevs : (extractEvents s vt pt hp).1 ≠ []) :
    analyze_breakout_strategy s vt pt hp =
      (some ((extractEvents s vt pt hp).1), []) := by
  have hmsg : (extractEvents s vt pt hp).2 = [] := by
    rw [extractEvents_eq]
  unfold analyze_breakout_strategy
  rw [if_neg (by simpa using hne), if_neg (by simpa using hevs), hmsg]

/-- Witness for the amended C4 at `badSeries`. -/
theorem C4_amended_witness :
    (¬ seriesValid badSeries) ∧ (badSeries ≠ []) ∧
    ((extractEvents badSeries 0 1 1).1 ≠ []) ∧
    analyze_breakout_strategy badSeries 0 1 1 =
      (some ((extractEvents badSeries 0 1 1).1), []) :=
  ⟨by with_unfolding_all decide, by with_unfolding_all decide,
   by with_unfolding_all decide,
   C4_amended badSeries 0 1 1 (by with_unfolding_all decide)
     (by with_unfolding_all decide) (by with_unfolding_all decide)⟩

/-- Counterexample to C5: at `demoSeries` the breakout day's close is
103.004, but the reported entry price is the 2-decimal rounding 103, so
the event's entry price does not equal `close[i]`. -/
theorem C5_cex :
    analyze_breakout_strategy demoSeries 0 1 1 = (some [demoEvent], []) ∧
    isBreakout demoSeries 0 1 19 = true ∧
    clQ demoSeries 19 = 103.004 ∧
    demoEvent.entryPrice ≠ clQ demoSeries 19 := by
  refine ⟨?_, ?_, ?_, ?_⟩
  · with_unfolding_all rfl
  · with_unfolding_all rfl
  · with_unfolding_all rfl
  · with_unfolding_all decide

/-- Claim C5 amended: for every reported event at breakout index `i` with
holding period `h`, the entry price is `close[i]` rounded to 2 decimals,
the exit price is `close[i+h]` rounded to 2 decimals, and the holding
period return is `(close[i+h] - close[i]) / close[i] * 100` (computed from
the unrounded closes) rounded to 2 decimals. -/
theorem C5_amended (s : List Bar) (vt pt : ℚ) (hp : ℕ)
    (evs : List Event) (msgs : List Msg) (hc : ∀ b ∈ s, 0 < b.close)
    (h : analyze_breakout_strategy s vt pt hp = (some evs, msgs)) :
    ∀ e ∈ evs, ∃ i, isBreakout s vt pt i = true ∧ i + hp < s.length ∧
      e.entryPrice = rnd2 (clQ s i) ∧
      e.exitPrice = rnd2 (clQ s (i + hp)) ∧
      e.holdingReturnPct =
        .fin (rnd2 ((clQ s (i + hp) - clQ s i) / clQ s i * 100)) := by
  obtain ⟨hevs, _, _⟩ := analyze_some_inv h
  subst hevs
  intro e he
  obtain ⟨i, m, hflag, hbound, hm, he'⟩ := mem_events_inv he
  refine ⟨i, hflag, hbound, ?_, ?_, ?_⟩
  · rw [he']
  · rw [he']
  · rw [he']
    exact hpr_field_fin hc hbound

/-- Witness for the amended C5 at `demoSeries`. -/
theorem C5_amended_witness :
    (∀ b ∈ demoSeries, 0 < b.close) ∧
    (∀ e ∈ [demoEvent], ∃ i, isBreakout demoSeries 0 1 i = true ∧
      i + 1 < demoSeries.length ∧
      e.entryPrice = rnd2 (clQ demoSeries i) ∧
      e.exitPrice = rnd2 (clQ demoSeries (i + 1)) ∧
      e.holdingReturnPct =
        .fin (rnd2 ((clQ demoSeries (i + 1) - clQ demoSeries i) /
          clQ demoSeries i * 100))) :=
  ⟨by with_unfolding_all decide,
   C5_amended demoSeries 0 1 1 [demoEvent] [] (by with_unfolding_all decide)
     (by with_unfolding_all rfl)⟩

/-- Claim C6: the derived series satisfy, for every in-range index `i` of a
series with positive closes: the 20-day volume moving average is the
arithmetic mean of `volume[i-19..i]` and is NaN for `i < 19`; the daily
return is `(close[i] - close[i-1]) / close[i-1]` and is NaN at `i = 0`;
the volume ratio is `(volume[i] / ma[i] - 1) * 100` wherever the moving
average is a nonzero finite value, and is NaN wherever the moving average
is NaN. -/
theorem C6_derived (s : List Bar) (i : ℕ) (hc : ∀ b ∈ s, 0 < b.close)
    (hi : i < s.length) :
    (19 ≤ i →
      vma20 s i = .fin ((∑ k in Finset.range 20, volQ s (i - 19 + k)) / 20)) ∧
    (i < 19 → vma20 s i = .nan) ∧
    (1 ≤ i → dailyReturn s i = .fin ((clQ s i - clQ s (i - 1)) / clQ s (i - 1))) ∧
    dailyReturn s 0 = .nan ∧
    (vma20 s i = .nan → volRatioPct s i = .nan) ∧
    (∀ m : ℚ, m ≠ 0 → vma20 s i = .fin m →
      volRatioPct s i = .fin ((volQ s i / m - 1) * 100)) := by
  refine ⟨?_, ?_, ?_, ?_, ?_, ?_⟩
  · intro h19
    unfold vma20
    rw [if_pos ⟨h19, hi⟩]
    unfold window20
    rw [listRangeMapSum]
  · intro h19
    unfold vma20
    rw [if_neg (by push_neg; intro h; exact absurd h (not_le.mpr h19))]
  · intro h1
    exact dailyReturn_fin hc (Nat.one_le_iff_ne_zero.mp h1) hi
  · unfold dailyReturn
    rw [if_pos (Or.inl rfl)]
  · exact ratio_nan_of_vma_nan
  · intro m hm0 hm
    exact ratio_fin hm0 hm

/-- Witness for C6 at `demoSeries`, index 19. -/
theorem C6_derived_witness :
    (∀ b ∈ demoSeries, 0 < b.close) ∧ (19 < demoSeries.length) ∧
    ((19 ≤ 19 → vma20 demoSeries 19 =
        .fin ((∑ k in Finset.range 20, volQ demoSeries (19 - 19 + k)) / 20)) ∧
     (19 < 19 → vma20 demoSeries 19 = .nan) ∧
     (1 ≤ 19 → dailyReturn demoSeries 19 =
        .fin ((clQ demoSeries 19 - clQ demoSeries (19 - 1)) / clQ demoSeries (19 - 1))) ∧
     dailyReturn demoSeries 0 = .nan ∧
     (vma20 demoSeries 19 = .nan → volRatioPct demoSeries 19 = .nan) ∧
     (∀ m : ℚ, m ≠ 0 → vma20 demoSeries 19 = .fin m →
        volRatioPct demoSeries 19 = .fin ((volQ demoSeries 19 / m - 1) * 100))) :=
  ⟨by with_unfolding_all decide, by with_unfolding_all decide,
   C6_derived demoSeries 19 (by with_unfolding_all decide)
     (by with_unfolding_all decide)⟩

/-- Counterexample to C7: at `demoSeries` the breakout day's 20-day moving
average is 1000.95; the reported integer field is the truncation 1000, even
though 1001 is strictly nearer, so the field is not rounded to the nearest
integer. -/
theorem C7_cex :
    analyze_breakout_strategy demoSeries 0 1 1 = (some [demoEvent], []) ∧
    vma20 demoSeries 19 = .fin (20019 / 20) ∧
    demoEvent.volumeMa20 = 1000 ∧
    |(20019 : ℚ) / 20 - (demoEvent.volumeMa20 : ℚ)| >
      |(20019 : ℚ) / 20 - 1001| := by
  refine ⟨?_, ?_, ?_, ?_⟩
  · with_unfolding_all rfl
  · with_unfolding_all rfl
  · with_unfolding_all rfl
  · rw [show demoEvent.volumeMa20 = 1000 by with_unfolding_all rfl]
    rw [show |(20019 : ℚ) / 20 - ((1000 : ℤ) : ℚ)| = 19 / 20 by
      rw [abs_of_pos (by norm_num)]; norm_num]
    rw [show |(20019 : ℚ) / 20 - 1001| = 1 / 20 by
      rw [abs_of_neg (by norm_num)]; norm_num]
    norm_num

/-- Claim C7 amended: in every reported event of a contract-satisfying
series (positive closes, non-negative volumes, non-negative volume
threshold), the three percentage fields are finite values with exactly two
decimal places (an integer divided by 100), the volume field is the stored
integer volume, and the integer moving-average field is the `int()`
truncation toward zero of the finite moving average, not its nearest
integer. -/
theorem C7_amended (s : List Bar) (vt pt : ℚ) (hp : ℕ)
    (evs : List Event) (msgs : List Msg)
    (hc : ∀ b ∈ s, 0 < b.close) (hv : ∀ b ∈ s, 0 ≤ b.volume) (hvt : 0 ≤ vt)
    (h : analyze_breakout_strategy s vt pt hp = (some evs, msgs)) :
    ∀ e ∈ evs,
      (∃ z : ℤ, e.volPctAboveAvg = .fin ((z : ℚ) / 100)) ∧
      (∃ z : ℤ, e.priceChangePct = .fin ((z : ℚ) / 100)) ∧
      (∃ z : ℤ, e.holdingReturnPct = .fin ((z : ℚ) / 100)) ∧
      (∃ i m, vma20 s i = .fin m ∧ e.volumeMa20 = pyTrunc m ∧
        e.volume = volI s i) := by
  obtain ⟨hevs, _, _⟩ := analyze_some_inv h
  subst hevs
  intro e he
  obtain ⟨i, m, hflag, hbound, hm, he'⟩ := mem_events_inv he
  obtain ⟨hmpos, _⟩ := breakout_ma_pos hv hvt hflag hm
  obtain ⟨r, hr, _, _, _, _⟩ := breakout_dret_fin hc hflag
  refine ⟨?_, ?_, ?_, ⟨i, m, hm, by rw [he'], by rw [he']⟩⟩
  · refine ⟨rndHalfEven ((volQ s i / m - 1) * 100 * 100), ?_⟩
    rw [he']
    rw [ratio_fin hmpos.ne' hm]
    rfl
  · refine ⟨rndHalfEven (r * 100 * 100), ?_⟩
    rw [he', hr]
    rfl
  · refine ⟨rndHalfEven ((clQ s (i + hp) - clQ s i) / clQ s i * 100 * 100), ?_⟩
    rw [he', hpr_field_fin hc hbound]
    rfl

/-- Witness for the amended C7 at `demoSeries`. -/
theorem C7_amended_witness :
    (∀ b ∈ demoSeries, 0 < b.close) ∧ (∀ b ∈ demoSeries, 0 ≤ b.volume) ∧
    ((0 : ℚ) ≤ 0) ∧
    (∀ e ∈ [demoEvent],
      (∃ z : ℤ, e.volPctAboveAvg = .fin ((z : ℚ) / 100)) ∧
      (∃ z : ℤ, e.priceChangePct = .fin ((z : ℚ) / 100)) ∧
      (∃ z : ℤ, e.holdingReturnPct = .fin ((z : ℚ) / 100)) ∧
      (∃ i m, vma20 demoSeries i = .fin m ∧ e.volumeMa20 = pyTrunc m ∧
        e.volume = volI demoSeries i)) :=
  ⟨by with_unfolding_all decide, by with_unfolding_all decide, le_refl 0,
   C7_amended demoSeries 0 1 1 [demoEvent] [] (by with_unfolding_all decide)
     (by with_unfolding_all decide) (le_refl 0) (by with_unfolding_all rfl)⟩

/-- Claim C8: whenever the returned event list is non-empty (and the series
satisfies the positive-close contract), the summary statistics of `main`
satisfy: the count is the number of events, the mean return times the count
is the sum of the events' holding returns, the win rate is the fraction of
events with positive holding return (times 100), and best/worst return are
the maximum and minimum holding return over the events. -/
theorem C8_summary (s : List Bar) (vt pt : ℚ) (hp : ℕ)
    (evs : List Event) (msgs : List Msg) (hc : ∀ b ∈ s, 0 < b.close)
    (h : analyze_breakout_strategy s vt pt hp = (some evs, msgs)) :
    evs ≠ [] ∧ summaryCount evs = evs.length ∧
    ∃ qs : List ℚ, hprCol evs = qs.map PFloat.fin ∧
      colMean (hprCol evs) = .fin (qs.sum / (qs.length : ℚ)) ∧
      winRatePct (hprCol evs) =
        .fin (((qs.countP (fun q => decide (0 < q))) : ℚ) / (qs.length : ℚ) * 100) ∧
      (∃ M, colMax (hprCol evs) = .fin M ∧ M ∈ qs ∧ ∀ x ∈ qs, x ≤ M) ∧
      (∃ w, colMin (hprCol evs) = .fin w ∧ w ∈ qs ∧ ∀ x ∈ qs, w ≤ x) := by
  obtain ⟨hevs, _, hne⟩ := analyze_some_inv h
  have hfin : ∀ x ∈ hprCol evs, ∃ q : ℚ, x = .fin q := by
    intro x hx
    obtain ⟨e, he, hxe⟩ := List.mem_map.mp hx
    obtain ⟨q, hq⟩ := events_hpr_fin hc e (hevs ▸ he)
    exact ⟨q, by rw [← hxe, hq]⟩
  obtain ⟨qs, hqs⟩ := all_fin_exists hfin
  have hqs_ne : qs ≠ [] := by
    intro h0
    rw [h0] at hqs
    simp only [List.map_nil] at hqs
    exact hne (by simpa [hprCol] using hqs)
  obtain ⟨q, qs', hcons⟩ := List.exists_cons_of_ne_nil hqs_ne
  subst hcons
  refine ⟨hne, rfl, q :: qs', hqs, ?_, ?_, ?_, ?_⟩
  · rw [hqs]
    exact colMean_fins _ hqs_ne
  · rw [hqs]
    exact winRatePct_fins _ hqs_ne
  · rw [hqs, colMax_fins]
    obtain ⟨hmem, hle, hall⟩ := foldl_max_spec qs' q
    refine ⟨_, rfl, ?_, ?_⟩
    · rcases hmem with hh | hh
      · rw [hh]
        exact List.mem_cons_self q qs'
      · exact List.mem_cons_of_mem _ hh
    · intro x hx
      rcases List.mem_cons.mp hx with rfl | hx
      · exact hle
      · exact hall x hx
  · rw [hqs, colMin_fins]
    obtain ⟨hmem, hle, hall⟩ := foldl_min_spec qs' q
    refine ⟨_, rfl, ?_, ?_⟩
    · rcases hmem with hh | hh
      · rw [hh]
        exact List.mem_cons_self q qs'
      · exact List.mem_cons_of_mem _ hh
    · intro x hx
      rcases List.mem_cons.mp hx with rfl | hx
      · exact hle
      · exact hall x hx

/-- Witness for C8 at `demoSeries`. -/
theorem C8_summary_witness :
    (∀ b ∈ demoSeries, 0 < b.close) ∧
    ([demoEvent] ≠ []) ∧ summaryCount [demoEvent] = [demoEvent].length ∧
    ∃ qs : List ℚ, hprCol [demoEvent] = qs.map PFloat.fin ∧
      colMean (hprCol [demoEvent]) = .fin (qs.sum / (qs.length : ℚ)) ∧
      winRatePct (hprCol [demoEvent]) =
        .fin (((qs.countP (fun q => decide (0 < q))) : ℚ) / (qs.length : ℚ) * 100) ∧
      (∃ M, colMax (hprCol [demoEvent]) = .fin M ∧ M ∈ qs ∧ ∀ x ∈ qs, x ≤ M) ∧
      (∃ w, colMin (hprCol [demoEvent]) = .fin w ∧ w ∈ qs ∧ ∀ x ∈ qs, w ≤ x) := by
  have hh := C8_summary demoSeries 0 1 1 [demoEvent] []
    (by with_unfolding_all decide) (by with_unfolding_all rfl)
  exact ⟨by with_unfolding_all decide, hh⟩

/-- Counterexample to C10: on the canonical series of the claimed shape
(twenty zero-volume days, then a positive-volume surge day), the surge day
is flagged, but its 20-day average is `v/20 = 5`, not zero, because the
rolling window includes the day itself; the reported volume percentage is
the finite value 1900, not a non-finite value. -/
theorem C10_cex :
    analyze_breakout_strategy demoZ 200 2 1 = (some [demoZEvent], []) ∧
    vma20 demoZ 20 = .fin 5 ∧
    demoZEvent.volPctAboveAvg = .fin 1900 ∧
    demoZEvent.volPctAboveAvg ≠ .pinf ∧
    demoZEvent.volPctAboveAvg ≠ .ninf ∧
    pfIsNan demoZEvent.volPctAboveAvg = false := by
  refine ⟨?_, ?_, ?_, ?_, ?_, ?_⟩
  · with_unfolding_all rfl
  · with_unfolding_all rfl
  · with_unfolding_all rfl
  · with_unfolding_all decide
  · with_unfolding_all decide
  · with_unfolding_all rfl

/-- Claim C10 amended: for every series with twenty consecutive zero
volumes immediately before a positive-volume day `j+20` inside the series,
that day's 20-day moving average is `v/20 > 0` (the trailing window
includes the day itself), its volume ratio is exactly 1900, and any event
built at that day carries the finite value 1900 as its volume percentage,
so the unguarded division never produces a non-finite event field in this
scenario. -/
theorem C10_amended (s : List Bar) (hp j : ℕ)
    (hz : ∀ k < 20, volQ s (j + k) = 0) (hpos : 0 < volQ s (j + 20))
    (hl : j + 20 < s.length) :
    vma20 s (j + 20) = .fin (volQ s (j + 20) / 20) ∧
    volQ s (j + 20) / 20 ≠ 0 ∧
    volRatioPct s (j + 20) = .fin 1900 ∧
    (∀ e, buildEvent s hp (j + 20) = some e →
      e.volPctAboveAvg = .fin 1900) := by
  have hsum : (window20 s (j + 20)).sum = volQ s (j + 20) := by
    unfold window20
    rw [listRangeMapSum]
    rw [show j + 20 - 19 = j + 1 from by omega]
    rw [Finset.sum_range_succ]
    rw [show j + 1 + 19 = j + 20 from by omega]
    rw [Finset.sum_eq_zero, zero_add]
    intro k hk
    rw [show j + 1 + k = j + (k + 1) from by omega]
    exact hz (k + 1) (by simpa using Nat.succ_lt_succ (Finset.mem_range.mp hk))
  have hma : vma20 s (j + 20) = .fin (volQ s (j + 20) / 20) := by
    unfold vma20
    rw [if_pos ⟨by omega, hl⟩, hsum]
  have hm0 : volQ s (j + 20) / 20 ≠ 0 := div_ne_zero hpos.ne' (by norm_num)
  have h20 : volQ s (j + 20) / (volQ s (j + 20) / 20) = 20 := by
    rw [div_div_eq_mul_div, mul_comm]
    exact mul_div_cancel_right₀ 20 hpos.ne'
  have hratio : volRatioPct s (j + 20) = .fin 1900 := by
    have := ratio_fin hm0 hma
    rw [this, h20]
    norm_num
  refine ⟨hma, hm0, hratio, ?_⟩
  intro e hbe
  unfold buildEvent at hbe
  rw [hma] at hbe
  injection hbe with hbe
  rw [← hbe]
  show pfRound2 (volRatioPct s (j + 20)) = .fin 1900
  rw [hratio]
  show PFloat.fin (rnd2 1900) = .fin 1900
  rw [show rnd2 1900 = 1900 by with_unfolding_all rfl]

/-- Witness for the amended C10 at `demoZ`, `j = 0`. -/
theorem C10_amended_witness :
    (∀ k < 20, volQ demoZ (0 + k) = 0) ∧ (0 < volQ demoZ (0 + 20)) ∧
    (0 + 20 < demoZ.length) ∧
    (vma20 demoZ (0 + 20) = .fin (volQ demoZ (0 + 20) / 20) ∧
     volQ demoZ (0 + 20) / 20 ≠ 0 ∧
     volRatioPct demoZ (0 + 20) = .fin 1900 ∧
     (∀ e, buildEvent demoZ 1 (0 + 20) = some e →
       e.volPctAboveAvg = .fin 1900)) :=
  ⟨by with_unfolding_all decide, by with_unfolding_all decide,
   by with_unfolding_all decide,
   C10_amended demoZ 1 0 (by with_unfolding_all decide)
     (by with_unfolding_all decide) (by with_unfolding_all decide)⟩

end BreakoutApp
